import Mathlib

/-!
Verification development for the release-aggregation pipeline in
src/scripts/generate-releases.js.

The script is embedded shallowly:

* JSON values appearing in descriptor fields are restricted to strings and
  null (the cases the specification is concerned with); a parsed descriptor
  is an association list of key/value pairs in key-insertion order, which is
  how JavaScript objects produced by JSON.parse behave for the non-numeric
  keys used here.
* The output directory is a function from filename to optional file content;
  writing a file updates the function, deleting sets it to none.  File
  contents are kept structured (`OutContent`); JSON.stringify is a
  deterministic pure function of the structured data, so equality of
  structured contents corresponds to byte-identical serialized files.
* `Array.prototype.sort` with the comparator `(a, b) => a.name.localeCompare(b.name)`
  is a stable sort; it is modelled with `List.insertionSort` (also stable)
  over a model of the default-locale `localeCompare` restricted to ASCII:
  primary key = case-folded code points, tertiary key = lowercase before
  uppercase at the first differing position.
* Console status lines are not contractual (the spec says so); the warnings
  the spec does speak about are modelled by the `Warn` type.
-/

namespace GenRel

/-- JSON value of a descriptor field, restricted to the string and null
cases that the validation logic distinguishes. -/
inductive Jv where
  | null : Jv
  | str (s : String) : Jv
deriving DecidableEq

/-- A parsed descriptor object: key/value pairs in insertion order. -/
abbrev JsObj := List (String × Jv)

/-- Property read `o[k]`: value of the first binding of key `k`. -/
def jget : JsObj → String → Option Jv
  | [], _ => none
  | e :: r, k => if e.1 = k then some e.2 else jget r k

/-- String value of field `k`, defaulting to `""` for absent or non-string
values (after validation every required field is a nonempty string). -/
def getS (o : JsObj) (k : String) : String :=
  match jget o k with
  | some (Jv.str s) => s
  | _ => ""

/-- Property assignment `o[k] = v`: replaces the existing binding in place,
or appends a new binding at the end, as JavaScript objects do. -/
def setKeyJ : JsObj → String → Jv → JsObj
  | [], k, v => [(k, v)]
  | e :: r, k, v => if e.1 = k then (k, v) :: r else e :: setKeyJ r k v

/-- The fixed required-field list of `loadMetadata` (line 37 of the script),
in source order. -/
def requiredFields : List String :=
  ["name", "category", "description", "version", "commit", "owner", "repo", "path"]

/-- The per-field check of `loadMetadata` (line 39): the field is missing,
null, undefined, or the empty string.  Values from JSON.parse are never
undefined, so absence covers that disjunct. -/
def fieldBad (o : JsObj) (k : String) : Bool :=
  match jget o k with
  | none => true
  | some Jv.null => true
  | some (Jv.str s) => s == ""

/-- Warnings and log lines emitted by the script. -/
inductive Warn where
  | parseError (p : String) : Warn
  | missingField (p : String) (field : String) : Warn
  | catsLoadFailed : Warn
  | info (msg : String) : Warn
deriving DecidableEq

/-- Model of Node's `path.dirname` for forward-slash paths: the input with
its last path component removed. -/
def jsDirname (p : String) : String :=
  match p.data.reverse.dropWhile (fun c => !(c == '/')) with
  | [] => "."
  | ['/'] => "/"
  | _ :: rest => String.mk rest.reverse

/-- The `.replace(/\\/g, '/')` normalization applied to the descriptor
directory (line 46). -/
def deback (s : String) : String :=
  String.mk (s.data.map (fun c => if c == '\\' then '/' else c))

/-- Embedding of `loadMetadata` (lines 31-53).  The input is the descriptor
path together with the result of reading and JSON-parsing the file (`none`
models a read or parse failure).  Returns the validated, enriched
descriptor (or `none`) together with the emitted warnings. -/
def loadMetadata (p : String) (parsed : Option JsObj) : Option JsObj × List Warn :=
  match parsed with
  | none => (none, [Warn.parseError p])
  | some m =>
    match requiredFields.find? (fun k => fieldBad m k) with
    | some f => (none, [Warn.missingField p f])
    | none => (some (setKeyJ m "filePath" (Jv.str (deback (jsDirname p)))), [])

/-- Embedding of `loadValidCategories` (lines 56-65): the input is the
parsed content of the external categories file, `none` modelling a read or
parse failure, which degrades to the empty list plus a warning. -/
def loadValidCategories : Option (List String) → List String × List Warn
  | some cats => (cats, [])
  | none => ([], [Warn.catsLoadFailed])

/-- One discovered descriptor file: its path and its parsed content
(`none` = read/parse failure). -/
abbrev MetaFile := String × Option JsObj

/-- The valid descriptors of a run, in discovery order (the loop at
lines 90-105 keeps exactly the files for which `loadMetadata` succeeds). -/
def validMetas (files : List MetaFile) : List JsObj :=
  files.filterMap (fun pf => (loadMetadata pf.1 pf.2).1)

/-- All loader warnings of a run, in discovery order. -/
def loadWarnsOf (files : List MetaFile) : List Warn :=
  files.flatMap (fun pf => (loadMetadata pf.1 pf.2).2)

/-- Appends descriptor `m` to the group of category `c`, creating the group
at the end if absent: the body of the grouping loop (lines 93-99) on an
insertion-ordered mapping. -/
def pushGroup : List (String × List JsObj) → String → JsObj → List (String × List JsObj)
  | [], c, m => [(c, [m])]
  | g :: rest, c, m =>
    if g.1 = c then (g.1, g.2 ++ [m]) :: rest else g :: pushGroup rest c m

/-- Grouping of the valid descriptors by the verbatim value of their
`category` field (lines 90-105), in key-insertion order. -/
def groupByCat (ms : List JsObj) : List (String × List JsObj) :=
  ms.foldl (fun acc m => pushGroup acc (getS m "category") m) []

/-- First-match lookup in a grouping accumulator. -/
def lookG : List (String × List JsObj) → String → Option (List JsObj)
  | [], _ => none
  | g :: r, c => if g.1 = c then some g.2 else lookG r c

/-- Numeric comparison used as the base of the collation model. -/
def cmpNat (a b : Nat) : Ordering :=
  if a < b then Ordering.lt else if a = b then Ordering.eq else Ordering.gt

/-- Lexicographic comparison of key lists. -/
def cmpLN : List Nat → List Nat → Ordering
  | [], [] => Ordering.eq
  | [], _ :: _ => Ordering.lt
  | _ :: _, [] => Ordering.gt
  | a :: as, b :: bs =>
    match cmpNat a b with
    | Ordering.eq => cmpLN as bs
    | o => o

/-- Primary collation key: case-folded code points (ASCII model). -/
def primK (s : String) : List Nat :=
  s.data.map (fun c => (Char.toLower c).toNat)

/-- Tertiary collation key: lowercase sorts before uppercase. -/
def tertK (s : String) : List Nat :=
  s.data.map (fun c => if Char.isUpper c then 1 else 0)

/-- Model of `String.prototype.localeCompare` under the default locale,
restricted to ASCII: compare case-folded code points first, breaking ties
lowercase-before-uppercase. -/
def localeCompare (s t : String) : Ordering :=
  match cmpLN (primK s) (primK t) with
  | Ordering.eq => cmpLN (tertK s) (tertK t)
  | o => o

/-- Boolean form of "comparator result is at most zero", the condition under
which a JavaScript comparator sort keeps `s` before `t`. -/
def leB (s t : String) : Bool :=
  !(localeCompare s t == Ordering.gt)

/-- Sort key order on descriptors: by `name` field, as in
`apps.sort((a, b) => a.name.localeCompare(b.name))` (line 124). -/
def appLe (a b : JsObj) : Prop :=
  leB (getS a "name") (getS b "name") = true

instance : DecidableRel appLe := fun a b =>
  inferInstanceAs (Decidable (_ = true))

/-- Stable sort of the descriptors of a category by name (line 124). -/
def sortApps (l : List JsObj) : List JsObj :=
  List.insertionSort appLe l

/-- The field names destructured away from a descriptor when building the
category-manifest entry (line 128); `filePath` is the spec's `location`. -/
def dropKeys : List String :=
  ["commit", "owner", "repo", "path", "filePath", "category", "files"]

/-- Rest-destructuring: keeps the bindings whose key is not removed, in
their original order. -/
def removeKeys (o : JsObj) (ks : List String) : JsObj :=
  o.filter (fun e => !(decide (e.1 ∈ ks)))

/-- The CleanApp projection (lines 127-132): strip the internal fields and
attach `slug = owner + "/" + repo + "/" + name`. -/
def cleanApp (app : JsObj) : JsObj :=
  setKeyJ (removeKeys app dropKeys) "slug"
    (Jv.str (getS app "owner" ++ "/" ++ getS app "repo" ++ "/" ++ getS app "name"))

/-- Category-name sanitization (line 120):
`category.toLowerCase().replace(/[^a-z0-9]/g, '-')`, char-wise for ASCII. -/
def sanitizeCategory (s : String) : String :=
  String.mk ((s.data.map Char.toLower).map
    (fun c => if (('a' ≤ c && c ≤ 'z') || ('0' ≤ c && c ≤ '9')) then c else '-'))

/-- The category manifest filename (line 120). -/
def catFileName (c : String) : String :=
  "category-" ++ sanitizeCategory c ++ ".json"

/-- Accumulator pass of `.replace(/\/+/g, '/')`: the flag records whether
the previously emitted character was a slash. -/
def collapseAux : Bool → List Char → List Char
  | _, [] => []
  | prev, c :: r =>
    if c = '/' then
      if prev then collapseAux true r else '/' :: collapseAux true r
    else c :: collapseAux false r

/-- Collapse every run of consecutive slashes to a single slash
(`.replace(/\/+/g, '/')`, line 185). -/
def collapseSlashes (s : String) : String :=
  String.mk (collapseAux false s.data)

/-- One entry of the Releases Index (lines 184-191). -/
structure RelEntry where
  name : String
  version : String
  slug : String
deriving DecidableEq

/-- Builds the Releases Index entry of a valid descriptor (lines 184-191). -/
def mkRelEntry (app : JsObj) : RelEntry :=
  { name := getS app "name"
    version := getS app "version"
    slug := collapseSlashes
      (getS app "owner" ++ "/" ++ getS app "repo" ++ getS app "path" ++ getS app "name") }

/-- A category manifest (lines 134-138). -/
structure CatManifest where
  category : String
  count : Nat
  apps : List JsObj
deriving DecidableEq

/-- One entry of the Categories Index (lines 156-160). -/
structure CatSummary where
  name : String
  slug : String
  count : Nat
deriving DecidableEq

/-- The Categories Index (lines 162-166). -/
structure CategoriesIndex where
  totalCategories : Nat
  totalApps : Nat
  categories : List CatSummary
deriving DecidableEq

/-- The Releases Index (lines 198-201). -/
structure ReleasesIndex where
  count : Nat
  apps : List RelEntry
deriving DecidableEq

/-- Order on Releases Index entries (line 196). -/
def relLe (a b : RelEntry) : Prop :=
  leB a.name b.name = true

instance : DecidableRel relLe := fun a b =>
  inferInstanceAs (Decidable (_ = true))

/-- Order on Categories Index entries (line 160). -/
def catSumLe (a b : CatSummary) : Prop :=
  leB a.name b.name = true

instance : DecidableRel catSumLe := fun a b =>
  inferInstanceAs (Decidable (_ = true))

/-- The groups of the run with each group's descriptors sorted by name
(the in-place `apps.sort` at line 124 mutates the grouped arrays, so every
later consumer sees the sorted lists). -/
def groupsSorted (files : List MetaFile) : List (String × List JsObj) :=
  (groupByCat (validMetas files)).map (fun g => (g.1, sortApps g.2))

/-- The category manifest files written in this run, in group order
(lines 117-149): filename paired with structured content. -/
def catFiles (files : List MetaFile) : List (String × CatManifest) :=
  (groupsSorted files).map (fun g =>
    (catFileName g.1, { category := g.1, count := g.2.length, apps := g.2.map cleanApp }))

/-- The `releaseFiles` list of the script: names of the category manifests
written in this run. -/
def relNames (files : List MetaFile) : List String :=
  (catFiles files).map (fun e => e.1)

/-- The Categories Index of the run (lines 152-166). -/
def catsIndexOf (files : List MetaFile) : CategoriesIndex :=
  { totalCategories := (groupsSorted files).length
    totalApps := ((groupsSorted files).map (fun g => g.2.length)).sum
    categories := List.insertionSort catSumLe
      ((groupsSorted files).map (fun g =>
        { name := g.1, slug := sanitizeCategory g.1, count := g.2.length })) }

/-- The Releases Index of the run (lines 177-201). -/
def relIndexOf (files : List MetaFile) : ReleasesIndex :=
  let allApps := List.insertionSort relLe
    ((groupsSorted files).flatMap (fun g => g.2.map mkRelEntry))
  { count := allApps.length, apps := allApps }

/-- Content of a file in the output directory: a structured manifest, or
arbitrary pre-existing bytes from an earlier state. -/
inductive OutContent where
  | cat (m : CatManifest) : OutContent
  | catsIdx (d : CategoriesIndex) : OutContent
  | relIdx (d : ReleasesIndex) : OutContent
  | stale (bytes : String) : OutContent
deriving DecidableEq

/-- The output directory: filename to optional content. -/
abbrev DirState := String → Option OutContent

/-- The file writes performed by a run with at least one discovered
descriptor file, in program order: category manifests, then the two indexes
when at least one category exists (the script's conditions at lines 152 and
177 are both "some category has a valid descriptor"). -/
def outputsOf (files : List MetaFile) : List (String × OutContent) :=
  (catFiles files).map (fun e => (e.1, OutContent.cat e.2)) ++
    (if (groupsSorted files).isEmpty then []
     else [("categories.json", OutContent.catsIdx (catsIndexOf files)),
           ("releases.json", OutContent.relIdx (relIndexOf files))])

/-- Sequential `fs.writeFileSync` effects on the directory. -/
def writeAll (st : DirState) (O : List (String × OutContent)) : DirState :=
  O.foldl (fun s e => fun f => if f == e.1 then some e.2 else s f) st

/-- Value of the last write of filename `f` in the write list. -/
def lastVal : List (String × OutContent) → String → Option OutContent
  | [], _ => none
  | e :: r, f =>
    match lastVal r f with
    | some v => some v
    | none => if e.1 == f then some e.2 else none

/-- The filename filter of the reconciliation step (lines 212-213):
`file.startsWith('category-') && file.endsWith('.json')`. -/
def startsAux : List Char → List Char → Bool
  | _, [] => true
  | [], _ :: _ => false
  | c :: cs, p :: ps => c == p && startsAux cs ps

/-- JavaScript `String.prototype.startsWith`. -/
def strStartsWith (s p : String) : Bool :=
  startsAux s.data p.data

/-- JavaScript `String.prototype.endsWith`. -/
def strEndsWith (s p : String) : Bool :=
  startsAux s.data.reverse p.data.reverse

/-- Whether a filename matches the category-manifest naming pattern used by
the reconciliation step. -/
def isCatFile (f : String) : Bool :=
  strStartsWith f "category-" && strEndsWith f ".json"

/-- The directory transition of `main` (lines 68-242): with no discovered
descriptor files the function returns before producing or deleting anything
(lines 80-83); otherwise it performs the writes and then deletes every file
matching the category-manifest pattern that was not written in this run
(lines 211-224). -/
def runDir (files : List MetaFile) (st : DirState) : DirState :=
  if files.isEmpty then st
  else fun f =>
    if isCatFile f && !((relNames files).contains f) then none
    else writeAll st (outputsOf files) f

/-- The warnings and contractual log lines of a run, in program order. -/
def runWarns (cfg : Option (List String)) (files : List MetaFile) : List Warn :=
  let lv := loadValidCategories cfg
  lv.2 ++ [Warn.info ("Valid categories: " ++ String.intercalate ", " lv.1)] ++
    (if files.isEmpty
     then [Warn.info "No metadata files found. No release files will be generated."]
     else loadWarnsOf files)

/-- The whole run: `cfg` is the parsed content of the external category
allow-list (`none` = load failure), `files` the discovered descriptor files
in traversal order, `st` the prior state of the output directory.  The
allow-list is used only in a log line (line 73 of the script), never in the
data path. -/
def runMain (cfg : Option (List String)) (files : List MetaFile) (st : DirState) :
    DirState × List Warn :=
  (runDir files st, runWarns cfg files)

/-- Modelled from the spec: lexicographic (code-point) string comparison,
the order named by the sort-order claim. -/
def cpLeB (s t : String) : Bool :=
  !(cmpLN (s.data.map Char.toNat) (t.data.map Char.toNat) == Ordering.gt)

/-- Boolean check that consecutive entries of a list are non-decreasing
under the given order. -/
def sortedByBool (le : String → String → Bool) : List String → Bool
  | [] => true
  | [_] => true
  | a :: b :: r => le a b && sortedByBool le (b :: r)

/-- Whether the name sequence of a manifest or index content is
non-decreasing under the given string order (other contents pass). -/
def contentSortedB (le : String → String → Bool) (c : OutContent) : Bool :=
  match c with
  | OutContent.cat man => sortedByBool le (man.apps.map (fun a => getS a "name"))
  | OutContent.relIdx r => sortedByBool le (r.apps.map (fun e => e.name))
  | _ => true

/-- Modelled from the spec: "with every maximal run of consecutive '/'
characters collapsed to a single '/'" — each maximal slash run is consumed
whole and replaced by one slash. -/
def collapseSpec : List Char → List Char
  | [] => []
  | c :: cs =>
    if c = '/' then '/' :: collapseSpec (cs.dropWhile (fun d => d == '/'))
    else c :: collapseSpec cs
termination_by l => l.length
decreasing_by
  · exact Nat.lt_succ_of_le (List.dropWhile_sublist _).length_le
  · exact Nat.lt_succ_of_le (Nat.le_refl _)

/-- Modelled from the spec: "sanitization lowercases the name and replaces
each character outside [a-z0-9] with a single '-'", as one char-wise pass. -/
def sanitizeSpec (s : String) : String :=
  String.mk (s.data.map (fun c =>
    let l := Char.toLower c
    if (('a' ≤ l && l ≤ 'z') || ('0' ≤ l && l ≤ '9')) then l else '-'))

/-- A fully valid example descriptor (category "Tools"). -/
def exFoo : JsObj :=
  [("name", Jv.str "Foo"), ("category", Jv.str "Tools"), ("description", Jv.str "d"),
   ("version", Jv.str "1.0"), ("commit", Jv.str "abc"), ("owner", Jv.str "o1"),
   ("repo", Jv.str "r1"), ("path", Jv.str "/a/")]

/-- The second descriptor of the spec's end-to-end scenario. -/
def exBar : JsObj :=
  [("name", Jv.str "Bar"), ("category", Jv.str "Tools"), ("description", Jv.str "d"),
   ("version", Jv.str "2.0"), ("commit", Jv.str "def"), ("owner", Jv.str "o2"),
   ("repo", Jv.str "r2"), ("path", Jv.str "/b/")]

/-- The slug-correctness example descriptor of the spec. -/
def exAcme : JsObj :=
  [("name", Jv.str "gizmo"), ("category", Jv.str "Tools"), ("description", Jv.str "d"),
   ("version", Jv.str "1.0"), ("commit", Jv.str "c"), ("owner", Jv.str "acme"),
   ("repo", Jv.str "widgets"), ("path", Jv.str "/w/")]

/-- A descriptor whose `version` field is absent (first bad field in the
required order). -/
def exNoVersion : JsObj :=
  [("name", Jv.str "x"), ("category", Jv.str "c"), ("description", Jv.str "d"),
   ("owner", Jv.str "o"), ("repo", Jv.str "r"), ("path", Jv.str "/p/")]

/-- A descriptor named "a" and one named "B" in one category: under the
default-locale comparator "a" sorts before "B", although "B" precedes "a"
in code-point order. -/
def exLowerA : JsObj :=
  [("name", Jv.str "a"), ("category", Jv.str "t"), ("description", Jv.str "d"),
   ("version", Jv.str "1"), ("commit", Jv.str "c"), ("owner", Jv.str "o"),
   ("repo", Jv.str "r"), ("path", Jv.str "/p/")]

/-- Companion descriptor named "B" for the sort-order counterexample. -/
def exUpperB : JsObj :=
  [("name", Jv.str "B"), ("category", Jv.str "t"), ("description", Jv.str "d"),
   ("version", Jv.str "1"), ("commit", Jv.str "c"), ("owner", Jv.str "o"),
   ("repo", Jv.str "r"), ("path", Jv.str "/p/")]

/-- Discovered-file list for the sort-order counterexample. -/
def cexSortFiles : List MetaFile :=
  [("r/b/metadata.json", some exUpperB), ("r/a/metadata.json", some exLowerA)]

/-- A prior-run directory containing one stale category manifest. -/
def staleDir : DirState :=
  fun f => if f == "category-tools.json" then some (OutContent.stale "old") else none

/-- A prior-run directory containing a stale category manifest and a stale
releases index. -/
def staleDir2 : DirState :=
  fun f =>
    if f == "releases.json" then some (OutContent.stale "r")
    else if f == "category-tools.json" then some (OutContent.stale "old")
    else none

/-- A discovered-file list whose only descriptor is invalid. -/
def invFiles : List MetaFile :=
  [("r/metadata.json", some [("name", Jv.str "x")])]

/-! Lemmas about the filename pattern of the reconciliation step. -/

theorem startsAux_append (p r : List Char) : startsAux (p ++ r) p = true := by
  induction p with
  | nil => cases r <;> rfl
  | cons c cs ih => simp [startsAux, ih]

theorem catFileName_data (c : String) :
    (catFileName c).data =
      "category-".data ++ ((sanitizeCategory c).data ++ ".json".data) := by
  unfold catFileName
  rw [String.data_append, String.data_append, List.append_assoc]

theorem catFileName_isCat (c : String) : isCatFile (catFileName c) = true := by
  unfold isCatFile strStartsWith strEndsWith
  rw [Bool.and_eq_true]
  constructor
  · rw [catFileName_data]
    exact startsAux_append _ _
  · rw [catFileName_data, ← List.append_assoc, List.reverse_append]
    exact startsAux_append _ _

theorem contains_false_of_not_mem {l : List String} {a : String} (h : a ∉ l) :
    l.contains a = false := by
  induction l with
  | nil => rfl
  | cons b r ih =>
    rw [List.mem_cons, not_or] at h
    have hb : (a == b) = false := by simp [h.1]
    rw [List.contains_cons, hb, ih h.2]
    rfl

theorem mem_of_contains_true {l : List String} {a : String} (h : l.contains a = true) :
    a ∈ l := by
  induction l with
  | nil => simp [List.contains] at h
  | cons b r ih =>
    rw [List.contains_cons, Bool.or_eq_true, beq_iff_eq] at h
    rcases h with h | h
    · exact h ▸ List.mem_cons_self _ _
    · exact List.mem_cons_of_mem _ (ih h)

/-! Lemmas about the output-directory state. -/

theorem writeAll_cons (st : DirState) (e : String × OutContent)
    (O : List (String × OutContent)) :
    writeAll st (e :: O) = writeAll (fun x => if x == e.1 then some e.2 else st x) O := rfl

theorem writeAll_apply (st : DirState) (O : List (String × OutContent)) (f : String) :
    writeAll st O f = (lastVal O f).or (st f) := by
  induction O generalizing st with
  | nil => rfl
  | cons e r ih =>
    rw [writeAll_cons, ih]
    cases hl : lastVal r f with
    | some v => simp [lastVal, hl, Option.or]
    | none =>
      by_cases hf : f = e.1
      · subst hf
        simp [lastVal, hl, Option.or]
      · have hf2 : ¬ e.1 = f := fun hh => hf hh.symm
        simp [lastVal, hl, hf, hf2, Option.or]

theorem runDir_pos (files : List MetaFile) (st : DirState) (h : files.isEmpty = false) :
    runDir files st = fun f =>
      if isCatFile f && !((relNames files).contains f) then none
      else writeAll st (outputsOf files) f := by
  simp [runDir, h]

/-! Lemmas about object lookup, assignment, and key removal. -/

theorem jget_setKeyJ_self (o : JsObj) (k : String) (v : Jv) :
    jget (setKeyJ o k v) k = some v := by
  induction o with
  | nil => simp [setKeyJ, jget]
  | cons e r ih =>
    by_cases h : e.1 = k
    · simp [setKeyJ, h, jget]
    · simp [setKeyJ, h, jget, ih]

theorem jget_setKeyJ_ne (o : JsObj) (k k2 : String) (v : Jv) (h : k2 ≠ k) :
    jget (setKeyJ o k v) k2 = jget o k2 := by
  have hk : ¬ k = k2 := fun hh => h hh.symm
  induction o with
  | nil => simp [setKeyJ, jget, hk]
  | cons e r ih =>
    by_cases he : e.1 = k
    · simp [setKeyJ, he, jget, hk]
    · simp only [setKeyJ, he, if_false, jget]
      by_cases h2 : e.1 = k2
      · simp [h2]
      · simp [h2, ih]

theorem jget_removeKeys_mem (o : JsObj) (ks : List String) (k : String)
    (h : k ∈ ks) : jget (removeKeys o ks) k = none := by
  induction o with
  | nil => rfl
  | cons e r ih =>
    show jget ((e :: r).filter (fun x => !(decide (x.1 ∈ ks)))) k = none
    rw [List.filter_cons]
    by_cases he : e.1 ∈ ks
    · simp only [decide_eq_true he, Bool.not_true, Bool.false_eq_true, if_false]
      exact ih
    · have hne : ¬ e.1 = k := fun hh => he (hh ▸ h)
      simp only [decide_eq_false he, Bool.not_false, if_true, jget, hne, if_false]
      exact ih

theorem jget_removeKeys_not_mem (o : JsObj) (ks : List String) (k : String)
    (h : k ∉ ks) : jget (removeKeys o ks) k = jget o k := by
  induction o with
  | nil => rfl
  | cons e r ih =>
    show jget ((e :: r).filter (fun x => !(decide (x.1 ∈ ks)))) k = jget (e :: r) k
    rw [List.filter_cons]
    by_cases he : e.1 ∈ ks
    · have hne : ¬ e.1 = k := fun hh => h (hh ▸ he)
      simp only [decide_eq_true he, Bool.not_true, Bool.false_eq_true, if_false, jget, hne]
      exact ih
    · simp only [decide_eq_false he, Bool.not_false, if_true, jget]
      by_cases h2 : e.1 = k
      · simp [h2]
      · simp only [h2, if_false]
        exact ih

theorem jget_cleanApp_kept (app : JsObj) (k : String)
    (h1 : k ∉ dropKeys) (h2 : k ≠ "slug") :
    jget (cleanApp app) k = jget app k := by
  unfold cleanApp
  rw [jget_setKeyJ_ne _ _ _ _ h2, jget_removeKeys_not_mem _ _ _ h1]

theorem getS_cleanApp_name (app : JsObj) : getS (cleanApp app) "name" = getS app "name" := by
  unfold getS
  rw [jget_cleanApp_kept app "name" (by decide) (by decide)]

/-! Lemmas about the collation model. -/

theorem cmpNat_eq_iff (a b : Nat) : cmpNat a b = Ordering.eq ↔ a = b := by
  unfold cmpNat
  split_ifs with h1 h2
  · simp
    omega
  · simp [h2]
  · simp
    omega

theorem cmpNat_lt_iff (a b : Nat) : cmpNat a b = Ordering.lt ↔ a < b := by
  unfold cmpNat
  split_ifs with h1 h2
  · simp [h1]
  · simp
    omega
  · simp
    omega

theorem cmpNat_swap (a b : Nat) : cmpNat b a = (cmpNat a b).swap := by
  unfold cmpNat
  split_ifs <;> first | rfl | (exfalso; omega)

theorem cmpLN_eq_iff (xs : List Nat) : ∀ ys, cmpLN xs ys = Ordering.eq ↔ xs = ys := by
  induction xs with
  | nil => intro ys; cases ys <;> simp [cmpLN]
  | cons a as ih =>
    intro ys
    cases ys with
    | nil => simp [cmpLN]
    | cons b bs =>
      show (match cmpNat a b with
            | Ordering.eq => cmpLN as bs
            | o => o) = Ordering.eq ↔ _
      cases hc : cmpNat a b with
      | lt =>
        have hab : a ≠ b := by
          have := (cmpNat_lt_iff a b).1 hc
          omega
        simp [hab]
      | eq =>
        have hab : a = b := (cmpNat_eq_iff a b).1 hc
        subst hab
        simp [ih]
      | gt =>
        have hab : a ≠ b := by
          intro hh
          rw [hh] at hc
          rw [(cmpNat_eq_iff b b).2 rfl] at hc
          cases hc
        simp [hab]

theorem cmpLN_swap (xs : List Nat) : ∀ ys, cmpLN ys xs = (cmpLN xs ys).swap := by
  induction xs with
  | nil => intro ys; cases ys <;> rfl
  | cons a as ih =>
    intro ys
    cases ys with
    | nil => rfl
    | cons b bs =>
      show (match cmpNat b a with
            | Ordering.eq => cmpLN bs as
            | o => o) =
          (match cmpNat a b with
            | Ordering.eq => cmpLN as bs
            | o => o).swap
      rw [cmpNat_swap, ih bs]
      cases cmpNat a b <;> rfl

theorem cmpLN_lt_trans (xs : List Nat) : ∀ ys zs, cmpLN xs ys = Ordering.lt →
    cmpLN ys zs = Ordering.lt → cmpLN xs zs = Ordering.lt := by
  induction xs with
  | nil =>
    intro ys zs h1 h2
    cases ys with
    | nil => simp [cmpLN] at h1
    | cons b bs =>
      cases zs with
      | nil => simp [cmpLN] at h2
      | cons c cs => rfl
  | cons a as ih =>
    intro ys zs h1 h2
    cases ys with
    | nil => simp [cmpLN] at h1
    | cons b bs =>
      cases zs with
      | nil => simp [cmpLN] at h2
      | cons c cs =>
        have h1m : (match cmpNat a b with
              | Ordering.eq => cmpLN as bs
              | o => o) = Ordering.lt := h1
        have h2m : (match cmpNat b c with
              | Ordering.eq => cmpLN bs cs
              | o => o) = Ordering.lt := h2
        show (match cmpNat a c with
              | Ordering.eq => cmpLN as cs
              | o => o) = Ordering.lt
        cases hab : cmpNat a b with
        | gt => rw [hab] at h1m; simp at h1m
        | lt =>
          cases hbc : cmpNat b c with
          | gt => rw [hbc] at h2m; simp at h2m
          | lt =>
            have hac : cmpNat a c = Ordering.lt := by
              rw [cmpNat_lt_iff] at hab hbc ⊢
              omega
            rw [hac]
          | eq =>
            have hbcx : b = c := (cmpNat_eq_iff b c).1 hbc
            subst hbcx
            rw [hab]
        | eq =>
          rw [hab] at h1m
          have habx : a = b := (cmpNat_eq_iff a b).1 hab
          subst habx
          cases hbc : cmpNat a c with
          | lt => rfl
          | gt => rw [hbc] at h2m; simp at h2m
          | eq =>
            rw [hbc] at h2m
            exact ih bs cs h1m h2m

theorem cmpLN_ne_gt_trans (xs ys zs : List Nat) (h1 : cmpLN xs ys ≠ Ordering.gt)
    (h2 : cmpLN ys zs ≠ Ordering.gt) : cmpLN xs zs ≠ Ordering.gt := by
  cases hxy : cmpLN xs ys with
  | gt => exact absurd hxy h1
  | eq =>
    rw [(cmpLN_eq_iff xs ys).1 hxy]
    exact h2
  | lt =>
    cases hyz : cmpLN ys zs with
    | gt => exact absurd hyz h2
    | eq =>
      have heq : ys = zs := (cmpLN_eq_iff ys zs).1 hyz
      subst heq
      simp [hxy]
    | lt =>
      rw [cmpLN_lt_trans xs ys zs hxy hyz]
      simp

theorem localeCompare_swap (s t : String) :
    localeCompare t s = (localeCompare s t).swap := by
  unfold localeCompare
  rw [cmpLN_swap (primK s) (primK t), cmpLN_swap (tertK s) (tertK t)]
  cases cmpLN (primK s) (primK t) <;> rfl

theorem localeCompare_ne_gt_trans (s t u : String)
    (h1 : localeCompare s t ≠ Ordering.gt) (h2 : localeCompare t u ≠ Ordering.gt) :
    localeCompare s u ≠ Ordering.gt := by
  unfold localeCompare at h1 h2 ⊢
  cases hst : cmpLN (primK s) (primK t) with
  | gt => rw [hst] at h1; exact absurd rfl h1
  | lt =>
    cases htu : cmpLN (primK t) (primK u) with
    | gt => rw [htu] at h2; exact absurd rfl h2
    | lt =>
      rw [cmpLN_lt_trans _ _ _ hst htu]
      simp
    | eq =>
      rw [← (cmpLN_eq_iff _ _).1 htu, hst]
      simp
  | eq =>
    rw [hst] at h1
    rw [(cmpLN_eq_iff _ _).1 hst]
    cases htu : cmpLN (primK t) (primK u) with
    | gt =>
      rw [htu] at h2
      exact absurd rfl h2
    | lt => simp
    | eq =>
      rw [htu] at h2
      exact cmpLN_ne_gt_trans _ _ _ h1 h2

theorem leB_eq_true_iff (s t : String) :
    leB s t = true ↔ localeCompare s t ≠ Ordering.gt := by
  unfold leB
  cases h : localeCompare s t <;> simp [h] <;> decide

theorem leB_trans {s t u : String} (h1 : leB s t = true) (h2 : leB t u = true) :
    leB s u = true := by
  rw [leB_eq_true_iff] at h1 h2 ⊢
  exact localeCompare_ne_gt_trans s t u h1 h2

theorem leB_total (s t : String) : leB s t = true ∨ leB t s = true := by
  rw [leB_eq_true_iff, leB_eq_true_iff]
  by_cases h : localeCompare s t = Ordering.gt
  · right
    rw [localeCompare_swap, h]
    decide
  · left
    exact h

/-! Sortedness of the pipeline's sorts. -/

theorem sortApps_sorted (l : List JsObj) : List.Sorted appLe (sortApps l) := by
  have htot : IsTotal JsObj appLe := ⟨fun a b => leB_total _ _⟩
  have htr : IsTrans JsObj appLe := ⟨fun a b c h1 h2 => leB_trans h1 h2⟩
  exact @List.sorted_insertionSort _ appLe _ htot htr l

theorem relSort_sorted (l : List RelEntry) :
    List.Sorted relLe (List.insertionSort relLe l) := by
  have htot : IsTotal RelEntry relLe := ⟨fun a b => leB_total _ _⟩
  have htr : IsTrans RelEntry relLe := ⟨fun a b c h1 h2 => leB_trans h1 h2⟩
  exact @List.sorted_insertionSort _ relLe _ htot htr l

theorem sortedByBool_of_pairwise (le : String → String → Bool) (l : List String) :
    l.Pairwise (fun a b => le a b = true) → sortedByBool le l = true := by
  induction l with
  | nil => intro _; rfl
  | cons a r ih =>
    intro h
    rw [List.pairwise_cons] at h
    cases r with
    | nil => rfl
    | cons b r2 =>
      show (le a b && sortedByBool le (b :: r2)) = true
      rw [Bool.and_eq_true]
      exact ⟨h.1 b (List.mem_cons_self _ _), ih h.2⟩

/-! Lemmas about the grouping of descriptors by category. -/

theorem groupByCat_snoc (ms : List JsObj) (m : JsObj) :
    groupByCat (ms ++ [m]) = pushGroup (groupByCat ms) (getS m "category") m := by
  unfold groupByCat
  rw [List.foldl_append]
  rfl

theorem lookG_none_iff (acc : List (String × List JsObj)) (c : String) :
    lookG acc c = none ↔ c ∉ acc.map (fun g => g.1) := by
  induction acc with
  | nil => simp [lookG]
  | cons g r ih =>
    by_cases h : g.1 = c
    · simp [lookG, h]
    · have h2 : ¬ c = g.1 := fun hh => h hh.symm
      simp [lookG, h, h2, ih]

theorem lookG_pushGroup_self (acc : List (String × List JsObj)) (c : String) (m : JsObj) :
    lookG (pushGroup acc c m) c = some (((lookG acc c).getD []) ++ [m]) := by
  induction acc with
  | nil => simp [pushGroup, lookG]
  | cons g r ih =>
    by_cases h : g.1 = c
    · simp [pushGroup, h, lookG]
    · simp [pushGroup, h, lookG, ih]

theorem lookG_pushGroup_ne (acc : List (String × List JsObj)) (c c2 : String) (m : JsObj)
    (h : c2 ≠ c) : lookG (pushGroup acc c m) c2 = lookG acc c2 := by
  induction acc with
  | nil =>
    have h2 : ¬ c = c2 := fun hh => h hh.symm
    show (if c = c2 then some [m] else lookG [] c2) = lookG [] c2
    rw [if_neg h2]
  | cons g r ih =>
    show lookG (if g.1 = c then (g.1, g.2 ++ [m]) :: r else g :: pushGroup r c m) c2 =
      (if g.1 = c2 then some g.2 else lookG r c2)
    by_cases hg : g.1 = c
    · rw [if_pos hg]
      have hgne : ¬ g.1 = c2 := fun hh => h (hh.symm.trans hg)
      show (if g.1 = c2 then some (g.2 ++ [m]) else lookG r c2) =
        (if g.1 = c2 then some g.2 else lookG r c2)
      rw [if_neg hgne, if_neg hgne]
    · rw [if_neg hg]
      show (if g.1 = c2 then some g.2 else lookG (pushGroup r c m) c2) =
        (if g.1 = c2 then some g.2 else lookG r c2)
      rw [ih]

theorem keys_pushGroup (acc : List (String × List JsObj)) (c : String) (m : JsObj) :
    (pushGroup acc c m).map (fun g => g.1) =
      if c ∈ acc.map (fun g => g.1) then acc.map (fun g => g.1)
      else acc.map (fun g => g.1) ++ [c] := by
  induction acc with
  | nil => simp [pushGroup]
  | cons g r ih =>
    by_cases h : g.1 = c
    · simp [pushGroup, h]
    · have h2 : ¬ c = g.1 := fun hh => h hh.symm
      by_cases hc : c ∈ r.map (fun g => g.1)
      · simp [pushGroup, h, ih, hc, h2]
      · simp [pushGroup, h, ih, hc, h2]

theorem groupByCat_inv (ms : List JsObj) :
    ((groupByCat ms).map (fun g => g.1)).Nodup ∧
    ∀ c, lookG (groupByCat ms) c =
      (if ms.filter (fun m => decide (getS m "category" = c)) = [] then none
       else some (ms.filter (fun m => decide (getS m "category" = c)))) := by
  induction ms using List.reverseRecOn with
  | nil =>
    constructor
    · simp [groupByCat]
    · intro c
      simp [groupByCat, lookG]
  | append_singleton ms m ih =>
    constructor
    · rw [groupByCat_snoc, keys_pushGroup]
      split_ifs with h
      · exact ih.1
      · rw [List.nodup_append]
        refine ⟨ih.1, List.nodup_singleton _, ?_⟩
        intro a ha hc
        rw [List.mem_singleton] at hc
        subst hc
        exact h ha
    · intro c
      rw [groupByCat_snoc]
      by_cases hc : c = getS m "category"
      · rw [hc]
        have hx := ih.2 (getS m "category")
        have hmt : (decide (getS m "category" = getS m "category")) = true :=
          decide_eq_true rfl
        by_cases hf : ms.filter (fun x => decide (getS x "category" = getS m "category")) = []
        · rw [if_pos hf] at hx
          rw [lookG_pushGroup_self, hx, List.filter_append, hf]
          simp [List.filter_cons, hmt]
        · rw [if_neg hf] at hx
          rw [lookG_pushGroup_self, hx, List.filter_append]
          simp [List.filter_cons, hmt, hf]
      · rw [lookG_pushGroup_ne _ _ _ _ hc, ih.2 c]
        have hm : (decide (getS m "category" = c)) = false :=
          decide_eq_false (fun hh => hc hh.symm)
        simp [List.filter_append, List.filter_cons, hm]

theorem lookG_of_mem {acc : List (String × List JsObj)}
    (hnd : (acc.map (fun g => g.1)).Nodup) {g : String × List JsObj} (hg : g ∈ acc) :
    lookG acc g.1 = some g.2 := by
  induction acc with
  | nil => cases hg
  | cons a r ih =>
    have hnd2 : (r.map (fun g => g.1)).Nodup := (List.nodup_cons.1 hnd).2
    have hna : a.1 ∉ r.map (fun g => g.1) := (List.nodup_cons.1 hnd).1
    rcases List.mem_cons.1 hg with heq | hg2
    · subst heq
      show (if g.1 = g.1 then some g.2 else lookG r g.1) = some g.2
      rw [if_pos rfl]
    · have hne : ¬ a.1 = g.1 := by
        intro hh
        apply hna
        rw [hh]
        exact List.mem_map_of_mem (fun x => x.1) hg2
      show (if a.1 = g.1 then some a.2 else lookG r g.1) = some g.2
      rw [if_neg hne]
      exact ih hnd2 hg2

theorem groups_eq_filter (ms : List JsObj) {g : String × List JsObj}
    (hg : g ∈ groupByCat ms) :
    g.2 = ms.filter (fun m => decide (getS m "category" = g.1)) ∧ g.2 ≠ [] := by
  have h1 := lookG_of_mem (groupByCat_inv ms).1 hg
  have h2 := (groupByCat_inv ms).2 g.1
  rw [h1] at h2
  by_cases hf : ms.filter (fun m => decide (getS m "category" = g.1)) = []
  · rw [if_pos hf] at h2
    cases h2
  · rw [if_neg hf] at h2
    have heq := Option.some.inj h2
    refine ⟨heq, fun hh => hf ?_⟩
    rw [← heq, hh]

theorem group_key_inhabited (ms : List JsObj) {g : String × List JsObj}
    (hg : g ∈ groupByCat ms) : ∃ m ∈ ms, getS m "category" = g.1 := by
  obtain ⟨hf, hne⟩ := groups_eq_filter ms hg
  cases he : g.2 with
  | nil => exact absurd he hne
  | cons x xs =>
    have hx : x ∈ ms.filter (fun m => decide (getS m "category" = g.1)) := by
      rw [← hf, he]
      exact List.mem_cons_self _ _
    have hm := List.mem_filter.1 hx
    exact ⟨x, hm.1, of_decide_eq_true hm.2⟩

theorem flat_pushGroup (acc : List (String × List JsObj)) (c : String) (m : JsObj) :
    ((pushGroup acc c m).flatMap (fun g => g.2)).Perm
      ((acc.flatMap (fun g => g.2)) ++ [m]) := by
  induction acc with
  | nil => simp [pushGroup]
  | cons g r ih =>
    by_cases h : g.1 = c
    · rw [pushGroup]
      rw [if_pos h]
      rw [List.flatMap_cons, List.flatMap_cons]
      have e1 : (g.2 ++ [m]) ++ r.flatMap (fun g => g.2) =
          g.2 ++ ([m] ++ r.flatMap (fun g => g.2)) := by rw [List.append_assoc]
      have e2 : (g.2 ++ r.flatMap (fun g => g.2)) ++ [m] =
          g.2 ++ (r.flatMap (fun g => g.2) ++ [m]) := by rw [List.append_assoc]
      rw [e1, e2]
      exact List.Perm.append_left _ List.perm_append_comm
    · rw [pushGroup]
      rw [if_neg h]
      rw [List.flatMap_cons, List.flatMap_cons]
      have e2 : (g.2 ++ r.flatMap (fun g => g.2)) ++ [m] =
          g.2 ++ (r.flatMap (fun g => g.2) ++ [m]) := by rw [List.append_assoc]
      rw [e2]
      exact List.Perm.append_left _ ih

theorem groupByCat_flat_perm (ms : List JsObj) :
    ((groupByCat ms).flatMap (fun g => g.2)).Perm ms := by
  induction ms using List.reverseRecOn with
  | nil => simp [groupByCat]
  | append_singleton ms m ih =>
    rw [groupByCat_snoc]
    exact (flat_pushGroup _ _ _).trans (ih.append (List.Perm.refl [m]))

theorem flatMap_perm_congr (l : List (String × List JsObj))
    (f h : String × List JsObj → List RelEntry)
    (H : ∀ g ∈ l, (f g).Perm (h g)) : (l.flatMap f).Perm (l.flatMap h) := by
  induction l with
  | nil => simp
  | cons g r ih =>
    rw [List.flatMap_cons, List.flatMap_cons]
    exact (H g (List.mem_cons_self _ _)).append
      (ih (fun x hx => H x (List.mem_cons_of_mem _ hx)))

theorem relIndex_perm (files : List MetaFile) :
    (relIndexOf files).apps.Perm ((validMetas files).map mkRelEntry) := by
  unfold relIndexOf
  refine (List.perm_insertionSort _ _).trans ?_
  unfold groupsSorted
  rw [List.flatMap_map]
  have h1 : ((groupByCat (validMetas files)).flatMap
      (fun g => (sortApps g.2).map mkRelEntry)).Perm
      ((groupByCat (validMetas files)).flatMap (fun g => g.2.map mkRelEntry)) :=
    flatMap_perm_congr _ _ _
      (fun g _ => (List.perm_insertionSort appLe g.2).map mkRelEntry)
  refine h1.trans ?_
  rw [← List.map_flatMap]
  exact (groupByCat_flat_perm (validMetas files)).map mkRelEntry

/-! Equivalence of the slash-collapsing pass with the spec's description. -/

theorem collapseAux_both (n : Nat) : ∀ l : List Char, l.length ≤ n →
    collapseAux false l = collapseSpec l ∧
    collapseAux true l = collapseSpec (l.dropWhile (fun d => d == '/')) := by
  induction n with
  | zero =>
    intro l hl
    have hnil : l = [] := List.length_eq_zero.1 (Nat.le_zero.1 hl)
    subst hnil
    constructor
    · rw [collapseSpec]
      rfl
    · show collapseAux true [] = collapseSpec []
      rw [collapseSpec]
      rfl
  | succ n ih =>
    intro l hl
    cases l with
    | nil =>
      constructor
      · rw [collapseSpec]
        rfl
      · show collapseAux true [] = collapseSpec []
        rw [collapseSpec]
        rfl
    | cons c r =>
      have hr : r.length ≤ n := Nat.le_of_succ_le_succ hl
      by_cases hc : c = '/'
      · subst hc
        constructor
        · have h1 : collapseAux false ('/' :: r) = '/' :: collapseAux true r := by
            simp [collapseAux]
          have h2 : collapseSpec ('/' :: r) =
              '/' :: collapseSpec (r.dropWhile (fun d => d == '/')) := by
            rw [collapseSpec]
            simp
          rw [h1, h2, (ih r hr).2]
        · have h1 : collapseAux true ('/' :: r) = collapseAux true r := by
            simp [collapseAux]
          have h2 : ('/' :: r).dropWhile (fun d => d == '/') =
              r.dropWhile (fun d => d == '/') := by
            simp [List.dropWhile_cons]
          rw [h1, h2, (ih r hr).2]
      · have h3 : collapseSpec (c :: r) = c :: collapseSpec r := by
          rw [collapseSpec]
          simp [hc]
        constructor
        · have h1 : collapseAux false (c :: r) = c :: collapseAux false r := by
            simp [collapseAux, hc]
          rw [h1, h3, (ih r hr).1]
        · have h1 : collapseAux true (c :: r) = c :: collapseAux false r := by
            simp [collapseAux, hc]
          have h2 : (c :: r).dropWhile (fun d => d == '/') = c :: r := by
            simp [List.dropWhile_cons, hc]
          rw [h1, h2, h3, (ih r hr).1]

theorem collapse_eq_spec (l : List Char) : collapseAux false l = collapseSpec l :=
  (collapseAux_both l.length l (Nat.le_refl _)).1

/-! The claims. -/

/-- C1, counterexample to the claim as stated: in the run where the set of
discovered descriptor files is empty, `main` returns before the
reconciliation step (lines 80-83 of the script), so a prior-run category
manifest whose category has zero valid descriptors (here trivially all of
them) still exists after the run. -/
theorem claim1_cex :
    staleDir "category-tools.json" = some (OutContent.stale "old") ∧
    validMetas ([] : List MetaFile) = [] ∧
    (runMain none [] staleDir).1 "category-tools.json" = some (OutContent.stale "old") := by
  refine ⟨by decide, rfl, by decide⟩

/-- C1, amended: provided at least one descriptor file is discovered and no
valid descriptor's category sanitizes to the stale manifest's filename,
that file no longer exists in the output directory after the run.  (In the
empty-discovery run the script returns early and the directory is left
untouched, and a current category whose filename collides with the stale
one would rewrite the file instead of deleting it.) -/
theorem claim1_amended (cfg : Option (List String)) (files : List MetaFile)
    (st : DirState) (fname cat : String)
    (h1 : files.isEmpty = false)
    (h2 : fname = catFileName cat)
    (h3 : ∀ m ∈ validMetas files, catFileName (getS m "category") ≠ fname) :
    (runMain cfg files st).1 fname = none := by
  show runDir files st fname = none
  rw [runDir_pos files st h1]
  have hcat : isCatFile fname = true := by
    rw [h2]
    exact catFileName_isCat cat
  have hnotmem : fname ∉ relNames files := by
    intro hmem
    unfold relNames at hmem
    rcases List.mem_map.1 hmem with ⟨x, hx, hxeq⟩
    unfold catFiles at hx
    rcases List.mem_map.1 hx with ⟨g, hg, rfl⟩
    unfold groupsSorted at hg
    rcases List.mem_map.1 hg with ⟨g0, hg0, rfl⟩
    obtain ⟨m, hm, hmcat⟩ := group_key_inhabited _ hg0
    apply h3 m hm
    rw [hmcat]
    exact hxeq
  have hcontains : (relNames files).contains fname = false :=
    contains_false_of_not_mem hnotmem
  show (if (isCatFile fname && !((relNames files).contains fname)) = true then none
    else writeAll st (outputsOf files) fname) = none
  rw [hcat, hcontains]
  simp

/-- C1, witness: a stale manifest for category "Tools" is deleted by a run
that discovered one valid descriptor of category "t". -/
theorem claim1_witness :
    (runMain none [("r/a/metadata.json", some exLowerA)] staleDir).1
      "category-tools.json" = none :=
  claim1_amended none [("r/a/metadata.json", some exLowerA)] staleDir
    "category-tools.json" "Tools" (by decide) (by decide) (by decide)

/-- C2, counterexample to the claim as stated: the script sorts with
`localeCompare`, not code-point order.  With descriptors named "B" and "a"
in one category, the emitted manifest lists ["a", "B"], which is strictly
decreasing under code-point comparison. -/
theorem claim2_cex :
    ((outputsOf cexSortFiles).all (fun e => contentSortedB cpLeB e.2) = false) ∧
    (catFiles cexSortFiles).map (fun e => e.2.apps.map (fun a => getS a "name")) =
      [["a", "B"]] := by
  constructor
  · decide
  · decide

/-- C2, amended: in every emitted category manifest and in the Releases
Index the entries are non-decreasing by `name` under the locale comparison
the code actually uses (case-insensitive primary on ASCII), for every input
set of descriptors. -/
theorem claim2_amended (files : List MetaFile) :
    (outputsOf files).all (fun e => contentSortedB leB e.2) = true := by
  rw [List.all_eq_true]
  intro e he
  unfold outputsOf at he
  rcases List.mem_append.1 he with h | h
  · rcases List.mem_map.1 h with ⟨x, hx, rfl⟩
    unfold catFiles at hx
    rcases List.mem_map.1 hx with ⟨g, hg, rfl⟩
    unfold groupsSorted at hg
    rcases List.mem_map.1 hg with ⟨g0, hg0, rfl⟩
    show sortedByBool leB (((sortApps g0.2).map cleanApp).map (fun a => getS a "name")) = true
    apply sortedByBool_of_pairwise
    rw [List.map_map]
    refine List.Pairwise.map _ ?_ (sortApps_sorted g0.2)
    intro a b hab
    show leB (getS (cleanApp a) "name") (getS (cleanApp b) "name") = true
    rw [getS_cleanApp_name, getS_cleanApp_name]
    exact hab
  · by_cases hgr : (groupsSorted files).isEmpty = true
    · rw [if_pos hgr] at h
      exact absurd h (List.not_mem_nil e)
    · rw [if_neg hgr] at h
      rcases List.mem_cons.1 h with rfl | h2
      · rfl
      · rcases List.mem_cons.1 h2 with rfl | h3
        · show sortedByBool leB ((relIndexOf files).apps.map (fun e => e.name)) = true
          apply sortedByBool_of_pairwise
          unfold relIndexOf
          refine List.Pairwise.map _ ?_ (relSort_sorted _)
          intro a b hab
          exact hab
        · exact absurd h3 (List.not_mem_nil e)

/-- C3: a descriptor with a missing, null, or empty required field is
rejected: the loader returns no descriptor and exactly one warning, naming
the first bad field in the fixed required-field order, and the descriptor
contributes nothing to the valid set. -/
theorem claim3 (p : String) (o : JsObj) (f : String)
    (h : requiredFields.find? (fun k => fieldBad o k) = some f) :
    fieldBad o f = true ∧
    ((requiredFields.dropWhile (fun k => !(fieldBad o k))).head? = some f) ∧
    loadMetadata p (some o) = (none, [Warn.missingField p f]) ∧
    (∀ rest, validMetas ((p, some o) :: rest) = validMetas rest) ∧
    (∀ rest, loadWarnsOf ((p, some o) :: rest) =
      Warn.missingField p f :: loadWarnsOf rest) := by
  have hbad : fieldBad o f = true := List.find?_some h
  have hload : loadMetadata p (some o) = (none, [Warn.missingField p f]) := by
    show (match requiredFields.find? (fun k => fieldBad o k) with
      | some f2 => ((none : Option JsObj), [Warn.missingField p f2])
      | none => (some (setKeyJ o "filePath" (Jv.str (deback (jsDirname p)))), [])) =
      (none, [Warn.missingField p f])
    rw [h]
  have hfirst : ∀ l : List String, l.find? (fun k => fieldBad o k) = some f →
      (l.dropWhile (fun k => !(fieldBad o k))).head? = some f := by
    intro l
    induction l with
    | nil => intro hh; cases hh
    | cons a r ih =>
      intro hh
      by_cases ha : fieldBad o a = true
      · rw [List.find?_cons_of_pos _ ha] at hh
        have hfa := Option.some.inj hh
        subst hfa
        rw [List.dropWhile_cons]
        simp [ha]
      · have ha2 : fieldBad o a = false := by
          revert ha
          cases fieldBad o a <;> simp
        rw [List.find?_cons_of_neg _ (by simp [ha2])] at hh
        rw [List.dropWhile_cons]
        simp only [ha2, Bool.not_false, if_true]
        exact ih hh
  refine ⟨hbad, hfirst _ h, hload, ?_, ?_⟩
  · intro rest
    simp [validMetas, hload]
  · intro rest
    simp [loadWarnsOf, hload]

/-- C3, witness: a descriptor missing `version` (with name, category,
description present) is rejected with exactly the warning naming
`version`, and contributes nothing to the valid set. -/
theorem claim3_witness :
    fieldBad exNoVersion "version" = true ∧
    ((requiredFields.dropWhile (fun k => !(fieldBad exNoVersion k))).head? =
      some "version") ∧
    loadMetadata "a/metadata.json" (some exNoVersion) =
      (none, [Warn.missingField "a/metadata.json" "version"]) ∧
    validMetas [("a/metadata.json", some exNoVersion)] = [] := by
  obtain ⟨h1, h2, h3, h4, _⟩ :=
    claim3 "a/metadata.json" exNoVersion "version" (by decide)
  exact ⟨h1, h2, h3, (h4 []).trans rfl⟩

/-- C4: the groups partition the valid descriptors: flattening the groups
is a permutation of the valid set, category keys are distinct, each group
is exactly the valid descriptors whose verbatim `category` equals its key
and is nonempty, the Releases Index holds exactly one entry per valid
descriptor, and every emitted category manifest is nonempty. -/
theorem claim4 (files : List MetaFile) :
    ((groupByCat (validMetas files)).flatMap (fun g => g.2)).Perm (validMetas files) ∧
    ((groupByCat (validMetas files)).map (fun g => g.1)).Nodup ∧
    ((groupByCat (validMetas files)).all (fun g =>
        decide (g.2 = (validMetas files).filter
          (fun m => decide (getS m "category" = g.1)))
        && !g.2.isEmpty)) = true ∧
    (relIndexOf files).apps.Perm ((validMetas files).map mkRelEntry) ∧
    ((catFiles files).all (fun e => !e.2.apps.isEmpty)) = true := by
  refine ⟨groupByCat_flat_perm _, (groupByCat_inv _).1, ?_, relIndex_perm files, ?_⟩
  · rw [List.all_eq_true]
    intro g hg
    obtain ⟨hf, hne⟩ := groups_eq_filter _ hg
    rw [Bool.and_eq_true]
    refine ⟨decide_eq_true hf, ?_⟩
    cases hx : g.2 with
    | nil => exact absurd hx hne
    | cons a l => rfl
  · rw [List.all_eq_true]
    intro e he
    unfold catFiles at he
    rcases List.mem_map.1 he with ⟨g, hg, rfl⟩
    unfold groupsSorted at hg
    rcases List.mem_map.1 hg with ⟨g0, hg0, rfl⟩
    obtain ⟨hf, hne⟩ := groups_eq_filter _ hg0
    show (!(((sortApps g0.2).map cleanApp).isEmpty)) = true
    have hlen : (sortApps g0.2).length = g0.2.length :=
      (List.perm_insertionSort appLe g0.2).length_eq
    cases hy : sortApps g0.2 with
    | nil =>
      rw [hy] at hlen
      have h0 : g0.2 = [] := List.length_eq_zero.1 hlen.symm
      exact absurd h0 hne
    | cons b l2 => rfl

/-- C5: the Releases Index slug is owner + "/" + repo + path + name with
every maximal run of consecutive slashes collapsed to a single slash, and
the spec's example descriptor yields "o2/r2/b/Bar". -/
theorem claim5 :
    (∀ app : JsObj, (mkRelEntry app).slug = String.mk (collapseSpec
      (getS app "owner" ++ "/" ++ getS app "repo" ++ getS app "path" ++
        getS app "name").data)) ∧
    (mkRelEntry exBar).slug = "o2/r2/b/Bar" := by
  constructor
  · intro app
    show collapseSlashes _ = _
    unfold collapseSlashes
    rw [collapse_eq_spec]
  · decide

/-- C6: the category-manifest entry of a descriptor carries
slug = owner + "/" + repo + "/" + name, drops exactly the internal fields
(commit, owner, repo, path, filePath alias location, category, files), and
passes every other field through unchanged. -/
theorem claim6 (app : JsObj) :
    jget (cleanApp app) "slug" =
      some (Jv.str (getS app "owner" ++ "/" ++ getS app "repo" ++ "/" ++
        getS app "name")) ∧
    (∀ k, k ∈ dropKeys → jget (cleanApp app) k = none) ∧
    (∀ k, k ∉ dropKeys → k ≠ "slug" → jget (cleanApp app) k = jget app k) := by
  refine ⟨?_, ?_, ?_⟩
  · unfold cleanApp
    exact jget_setKeyJ_self _ _ _
  · intro k hk
    have hkslug : k ≠ "slug" := by
      intro hh
      subst hh
      revert hk
      decide
    unfold cleanApp
    rw [jget_setKeyJ_ne _ _ _ _ hkslug]
    exact jget_removeKeys_mem _ _ _ hk
  · intro k hk1 hk2
    exact jget_cleanApp_kept app k hk1 hk2

/-- C6, witness: the spec's example descriptor (owner "acme", repo
"widgets", name "gizmo") gets slug "acme/widgets/gizmo"; `commit` is
stripped and `version` passes through. -/
theorem claim6_witness :
    jget (cleanApp exAcme) "slug" = some (Jv.str "acme/widgets/gizmo") ∧
    jget (cleanApp exAcme) "commit" = none ∧
    jget (cleanApp exAcme) "version" = jget exAcme "version" := by
  obtain ⟨h1, h2, h3⟩ := claim6 exAcme
  exact ⟨h1.trans (by decide), h2 "commit" (by decide),
    h3 "version" (by decide) (by decide)⟩

/-- C7: the category allow-list never filters: the resulting output
directory is the same for any two allow-list configurations (the list
appears only in a log line), and a failed load degrades to the empty list
plus a warning. -/
theorem claim7 :
    (∀ cfg cfg2 : Option (List String), ∀ files st,
      (runMain cfg files st).1 = (runMain cfg2 files st).1) ∧
    loadValidCategories none = ([], [Warn.catsLoadFailed]) :=
  ⟨fun _ _ _ _ => rfl, rfl⟩

/-- C8: the run is idempotent on the output directory: running again with
the same discovered files over the directory produced by the first run
yields the same content for every filename. -/
theorem claim8 (cfg : Option (List String)) (files : List MetaFile) (st : DirState)
    (f : String) :
    (runMain cfg files (runMain cfg files st).1).1 f = (runMain cfg files st).1 f := by
  show runDir files (runDir files st) f = runDir files st f
  cases hb : files.isEmpty with
  | true => simp [runDir, hb]
  | false =>
    have hinner : ∀ x, runDir files st x =
        if isCatFile x && !((relNames files).contains x) then none
        else writeAll st (outputsOf files) x := by
      intro x
      rw [runDir_pos files st hb]
    have houter : runDir files (runDir files st) f =
        if isCatFile f && !((relNames files).contains f) then none
        else writeAll (runDir files st) (outputsOf files) f := by
      rw [runDir_pos files (runDir files st) hb]
    rw [houter, hinner f]
    cases hc : (isCatFile f && !((relNames files).contains f)) with
    | true => simp
    | false =>
      simp only [Bool.false_eq_true, if_false]
      rw [writeAll_apply, writeAll_apply]
      cases hl : lastVal (outputsOf files) f with
      | some v => rfl
      | none =>
        show Option.or none (runDir files st f) = Option.or none (st f)
        rw [hinner f]
        simp only [hc, Bool.false_eq_true, if_false]
        rw [writeAll_apply, hl]
        rfl

/-- C9: the manifest filename is "category-" plus the sanitized category
plus ".json", where sanitization lowercases and replaces each character
outside [a-z0-9] by one '-'; category "Dev Tools!" yields
"category-dev-tools-.json". -/
theorem claim9 :
    (∀ c : String, catFileName c = "category-" ++ sanitizeSpec c ++ ".json") ∧
    catFileName "Dev Tools!" = "category-dev-tools-.json" := by
  constructor
  · intro c
    unfold catFileName sanitizeCategory sanitizeSpec
    rw [List.map_map]
    rfl
  · decide

/-- C10: the reconciliation step only ever deletes filenames matching the
category-manifest pattern, so a file whose name does not match (such as
categories.json or releases.json) survives every run; in a run whose
discovered descriptors are all invalid, the two index files are not even
rewritten and keep their prior content byte for byte. -/
theorem claim10 (cfg : Option (List String)) (files : List MetaFile) (st : DirState)
    (f : String) :
    (isCatFile f = false → st f ≠ none → (runMain cfg files st).1 f ≠ none) ∧
    (files.isEmpty = false → validMetas files = [] →
      (runMain cfg files st).1 "categories.json" = st "categories.json" ∧
      (runMain cfg files st).1 "releases.json" = st "releases.json") := by
  constructor
  · intro hpat hst
    show runDir files st f ≠ none
    cases hb : files.isEmpty with
    | true =>
      unfold runDir
      rw [if_pos hb]
      exact hst
    | false =>
      rw [runDir_pos files st hb]
      simp only [hpat, Bool.false_and, Bool.false_eq_true, if_false]
      rw [writeAll_apply]
      cases hl : lastVal (outputsOf files) f with
      | some v => simp [Option.or]
      | none =>
        show Option.or none (st f) ≠ none
        exact hst
  · intro hb hvm
    have hout : outputsOf files = [] := by
      unfold outputsOf catFiles groupsSorted
      rw [hvm]
      rfl
    constructor
    · show runDir files st "categories.json" = st "categories.json"
      rw [runDir_pos files st hb]
      have h1 : isCatFile "categories.json" = false := by decide
      simp only [h1, Bool.false_and, Bool.false_eq_true, if_false]
      rw [hout]
      rfl
    · show runDir files st "releases.json" = st "releases.json"
      rw [runDir_pos files st hb]
      have h1 : isCatFile "releases.json" = false := by decide
      simp only [h1, Bool.false_and, Bool.false_eq_true, if_false]
      rw [hout]
      rfl

/-- C10, witness: over a directory holding a stale releases.json and a
stale category manifest, a run whose only descriptor is invalid keeps
releases.json present with its old content, and categories.json untouched. -/
theorem claim10_witness :
    ((runMain none invFiles staleDir2).1 "releases.json" ≠ none) ∧
    (runMain none invFiles staleDir2).1 "categories.json" =
      staleDir2 "categories.json" ∧
    (runMain none invFiles staleDir2).1 "releases.json" =
      staleDir2 "releases.json" := by
  have h := claim10 none invFiles staleDir2 "releases.json"
  exact ⟨h.1 (by decide) (by decide), (h.2 (by decide) (by decide)).1,
    (h.2 (by decide) (by decide)).2⟩

end GenRel
